import Mathlib

/-!
Shallow embedding of `src/UpgradeToDotNet8.py` over `List Char` (a Python
`str` is modelled as its list of characters).  Pure functions of the source
become Lean functions; the remote OpenAI call is modelled as an oracle
parameter; logging and file writes are modelled as counts / returned values.
-/

/-- Characters stripped by Python's `str.strip()` (ASCII whitespace:
space, tab, newline, carriage return, vertical tab, form feed; Unicode
whitespace beyond ASCII is not modelled). -/
def isPySpace (c : Char) : Bool :=
  c = ' ' || c = '\t' || c = '\n' || c = '\r' || c = '\x0b' || c = '\x0c'

/-- Python `s.strip()`: remove leading and trailing whitespace. -/
def pyStrip (l : List Char) : List Char :=
  ((l.dropWhile isPySpace).reverse.dropWhile isPySpace).reverse

/-- Python `sep.join(parts)`. -/
def joinSep (sep : List Char) : List (List Char) → List Char
  | [] => []
  | [x] => x
  | x :: y :: t => x ++ sep ++ joinSep sep (y :: t)

/-- Python `"\n".join(parts)`, as used at line 146 of the source. -/
def joinNL (parts : List (List Char)) : List Char :=
  joinSep [ '\n' ] parts

/-- Source line 13: `CHUNK_SIZE = 200_000`. -/
def CHUNK_SIZE : Nat := 200000

/-- Fuel-indexed body of the `while start < len(text)` loop of `chunk_text`
(source lines 91–97).  Each iteration takes the next `chunk_size` characters.
For `chunk_size ≥ 1` a fuel of `text.length` is enough (each iteration
consumes at least one character), so `chunk_text` below never hits the
fuel-exhaustion branch; for `chunk_size = 0` the Python loop diverges. -/
def chunkGo (chunk_size : Nat) : Nat → List Char → List (List Char)
  | _, [] => []
  | 0, _ => []
  | fuel + 1, text => text.take chunk_size :: chunkGo chunk_size fuel (text.drop chunk_size)

/-- Source lines 86–97: split `text` into consecutive slices of
`chunk_size` characters; the final chunk may be shorter. -/
def chunk_text (text : List Char) (chunk_size : Nat) : List (List Char) :=
  chunkGo chunk_size text.length text

/-!
A small backtracking regular-expression engine, sufficient for the four
patterns of `extract_context` (source lines 59–68).  Every quantifier in
those patterns applies to a single character class, so the engine only
needs class quantifiers; backtracking order follows Python `re`: greedy
quantifiers try the longest run first, lazy ones the shortest,
alternatives left to right.  `bol` is the MULTILINE `^` anchor.
-/

inductive RE where
  | cls (f : Char → Bool)
  | lit (t : List Char)
  | starG (f : Char → Bool)
  | starL (f : Char → Bool)
  | plusG (f : Char → Bool)
  | seq (a b : RE)
  | alt (a b : RE)
  | opt (a : RE)
  | grp (i : Nat) (a : RE)
  | bol

/-- Captured groups of one match attempt: pairs of group index and text. -/
abbrev Captures : Type := List (Nat × List Char)

/-- First success among candidate repetition counts (backtracking order). -/
def firstSome {α : Type} (f : Nat → Option α) : List Nat → Option α
  | [] => none
  | i :: is =>
    match f i with
    | some a => some a
    | none => firstSome f is

/-- The character immediately before the current position after consuming
`consumed`, given the character before `consumed` was `prev`. -/
def prevAfter (prev : Option Char) (consumed : List Char) : Option Char :=
  match consumed.getLast? with
  | some c => some c
  | none => prev

/-- CPS matcher: try to match `r` at the start of `s` (where `prev` is the
character just before `s`, for the `^` anchor), extending captures `g`, and
call the continuation `k` with the rest of the input, the new previous
character and the new captures.  Returns the first (Python backtracking
order) overall success. -/
def reMatch (r : RE) (s : List Char) (prev : Option Char) (g : Captures)
    (k : List Char → Option Char → Captures → Option (Captures × List Char)) :
    Option (Captures × List Char) :=
  match r with
  | RE.cls f =>
    match s with
    | [] => none
    | c :: rest => if f c then k rest (some c) g else none
  | RE.lit t =>
    if s.take t.length = t then k (s.drop t.length) (prevAfter prev (s.take t.length)) g
    else none
  | RE.starG f =>
    let n := (s.takeWhile f).length
    firstSome (fun i => k (s.drop i) (prevAfter prev (s.take i)) g) (List.range (n + 1)).reverse
  | RE.starL f =>
    let n := (s.takeWhile f).length
    firstSome (fun i => k (s.drop i) (prevAfter prev (s.take i)) g) (List.range (n + 1))
  | RE.plusG f =>
    let n := (s.takeWhile f).length
    firstSome (fun i => k (s.drop i) (prevAfter prev (s.take i)) g) (List.range' 1 n).reverse
  | RE.seq a b => reMatch a s prev g (fun s2 p2 g2 => reMatch b s2 p2 g2 k)
  | RE.alt a b =>
    match reMatch a s prev g k with
    | some res => some res
    | none => reMatch b s prev g k
  | RE.opt a =>
    match reMatch a s prev g k with
    | some res => some res
    | none => k s prev g
  | RE.grp i a =>
    reMatch a s prev g (fun s2 p2 g2 => k s2 p2 (g2 ++ [(i, s.take (s.length - s2.length))]))
  | RE.bol => if prev = none || prev = some '\n' then k s prev g else none

/-- Python `re.search`: try the pattern at each position left to right;
return the offset of the first match, its captures, and the input rest
after the match. -/
def research (r : RE) : List Char → Option Char → Option (Nat × Captures × List Char)
  | s, prev =>
    match reMatch r s prev [] (fun s2 _ g2 => some (g2, s2)) with
    | some (g, rest) => some (0, g, rest)
    | none =>
      match s with
      | [] => none
      | c :: tail =>
        match research r tail (some c) with
        | some (i, g, rest) => some (i + 1, g, rest)
        | none => none

/-- Python `re.findall` body: repeatedly search; after each match continue
after it (advancing one character after an empty match, as Python does).
The fuel `s.length + 1` supplied by `findall` is always sufficient since
every iteration consumes at least one character. -/
def findallAux (r : RE) : Nat → List Char → Option Char → List (List Char × Captures)
  | 0, _, _ => []
  | fuel + 1, s, prev =>
    match research r s prev with
    | none => []
    | some (i, g, rest) =>
      let atMatch := s.drop i
      let matched := atMatch.take (atMatch.length - rest.length)
      let prevAtMatch := prevAfter prev (s.take i)
      if matched.length = 0 then
        match rest with
        | [] => [(matched, g)]
        | c :: tail => (matched, g) :: findallAux r fuel tail (some c)
      else
        (matched, g) :: findallAux r fuel rest (prevAfter prevAtMatch matched)

/-- Python `re.findall`: all non-overlapping matches, left to right. -/
def findall (r : RE) (s : List Char) : List (List Char × Captures) :=
  findallAux r (s.length + 1) s none

/-- Python `match.group(i)`: the text captured by group `i`. -/
def getCapture (i : Nat) (g : Captures) : List Char :=
  match List.find? (fun p => p.1 = i) g with
  | some p => p.2
  | none => []

/-- Python `\w` for ASCII: letters, digits, underscore (Unicode word
characters beyond ASCII are not modelled). -/
def isPyWordChar (c : Char) : Bool := c.isAlphanum || c = '_'

/-- The class `[\w\.]`. -/
def isWordDotChar (c : Char) : Bool := isPyWordChar c || c = '.'

/-- The class `[\w<>]`. -/
def isWordAngleChar (c : Char) : Bool := isPyWordChar c || c = '<' || c = '>'

/-- Regex `.` without DOTALL: any character except a newline. -/
def isDotChar (c : Char) : Bool := c != '\n'

def usingKw : List Char := [ 'u', 's', 'i', 'n', 'g' ]
def namespaceKw : List Char := [ 'n', 'a', 'm', 'e', 's', 'p', 'a', 'c', 'e' ]
def publicKw : List Char := [ 'p', 'u', 'b', 'l', 'i', 'c' ]
def internalKw : List Char := [ 'i', 'n', 't', 'e', 'r', 'n', 'a', 'l' ]
def privateKw : List Char := [ 'p', 'r', 'i', 'v', 'a', 't', 'e' ]
def protectedKw : List Char := [ 'p', 'r', 'o', 't', 'e', 'c', 't', 'e', 'd' ]
def partialKw : List Char := [ 'p', 'a', 'r', 't', 'i', 'a', 'l' ]
def classKw : List Char := [ 'c', 'l', 'a', 's', 's' ]
def structKw : List Char := [ 's', 't', 'r', 'u', 'c', 't' ]
def recordKw : List Char := [ 'r', 'e', 'c', 'o', 'r', 'd' ]
def overrideKw : List Char := [ 'o', 'v', 'e', 'r', 'r', 'i', 'd', 'e' ]
def virtualKw : List Char := [ 'v', 'i', 'r', 't', 'u', 'a', 'l' ]

/-- Right-nested sequence of a list of regexes. -/
def reseq : List RE → RE
  | [] => RE.lit []
  | [r] => r
  | r :: r2 :: t => RE.seq r (reseq (r2 :: t))

/-- The visibility-modifier group `(?:public|internal|private|protected)`
shared by the class and method patterns (source lines 61 and 65). -/
def reVisibility : RE :=
  RE.alt (RE.lit publicKw) (RE.alt (RE.lit internalKw) (RE.alt (RE.lit privateKw) (RE.lit protectedKw)))

/-- Source line 59: `^\s*using\s+[\w\.]+;` with MULTILINE. -/
def reUsing : RE :=
  reseq [RE.bol, RE.starG isPySpace, RE.lit usingKw, RE.plusG isPySpace,
         RE.plusG isWordDotChar, RE.cls (fun c => c = ';')]

/-- Source lines 60–63:
`(?:public|internal|private|protected)\s+(?:partial\s+)?(class|struct|record)\s+(\w+)`. -/
def reClassDecl : RE :=
  reseq [reVisibility, RE.plusG isPySpace,
         RE.opt (RE.seq (RE.lit partialKw) (RE.plusG isPySpace)),
         RE.grp 1 (RE.alt (RE.lit classKw) (RE.alt (RE.lit structKw) (RE.lit recordKw))),
         RE.plusG isPySpace, RE.grp 2 (RE.plusG isPyWordChar)]

/-- Source lines 64–67:
`(?:public|internal|private|protected)\s+(?:override\s+)?(?:virtual\s+)?\w[\w<>]*\s+(\w+)\(.*?\)`. -/
def reMethodDecl : RE :=
  reseq [reVisibility, RE.plusG isPySpace,
         RE.opt (RE.seq (RE.lit overrideKw) (RE.plusG isPySpace)),
         RE.opt (RE.seq (RE.lit virtualKw) (RE.plusG isPySpace)),
         RE.cls isPyWordChar, RE.starG isWordAngleChar, RE.plusG isPySpace,
         RE.grp 1 (RE.plusG isPyWordChar),
         RE.cls (fun c => c = '('), RE.starL isDotChar, RE.cls (fun c => c = ')')]

/-- Source line 68: `^\s*namespace\s+([\w\.]+)` with MULTILINE. -/
def reNamespace : RE :=
  reseq [RE.bol, RE.starG isPySpace, RE.lit namespaceKw, RE.plusG isPySpace,
         RE.grp 1 (RE.plusG isWordDotChar)]

def nsLabelStr : String := "Namespace: "
def classesLabelStr : String := "Classes: "
def methodsLabelStr : String := "Methods: "
def commaSpStr : String := ", "

/-- Source lines 55–83: `extract_context`, gathering using lines, the first
namespace, class/struct/record declarations and method names into one block. -/
def extract_context (csharp_code : List Char) : List Char :=
  let using_statements := (findall reUsing csharp_code).map (fun m => m.1)
  let class_names := (findall reClassDecl csharp_code).map
    (fun m => (getCapture 1 m.2, getCapture 2 m.2))
  let method_signatures := (findall reMethodDecl csharp_code).map (fun m => getCapture 1 m.2)
  let namespace_match := research reNamespace csharp_code none
  let context_parts : List (List Char) :=
    (if using_statements.isEmpty then [] else [joinNL using_statements]) ++
    (match namespace_match with
     | some (_, g, _) => [nsLabelStr.toList ++ getCapture 1 g]
     | none => []) ++
    (if class_names.isEmpty then []
     else [classesLabelStr.toList ++
           joinSep commaSpStr.toList (class_names.map (fun p => p.1 ++ ' ' :: p.2))]) ++
    (if method_signatures.isEmpty then []
     else [methodsLabelStr.toList ++ joinSep commaSpStr.toList method_signatures])
  pyStrip (joinNL context_parts)

/-- Outcome of one remote completion call (source lines 111–123): either
the text content of the first returned choice, or any raised exception,
which the source catches as one generic failure class. -/
inductive RemoteOutcome where
  | success (content : List Char)
  | failure

/-- Single quote character, used inside the prompt texts. -/
def squote : String := String.singleton (Char.ofNat 39)

/-- Source lines 30–34: the user prompt template up to the
`chunk_context` placeholder. -/
def USER_PROMPT_pre : String :=
  "Please upgrade the following .NET 4.8 C# code to .NET 8.\nIf it is already compatible, return "
    ++ squote ++ "compatible" ++ squote ++ ".\n\nChunk context (from entire file):\n"

/-- Source lines 34–38: the template between the `chunk_context` and
`code_chunk` placeholders. -/
def USER_PROMPT_mid : String := "\n\nCode:\n```csharp\n"

/-- Source lines 38–40: the template after the `code_chunk` placeholder. -/
def USER_PROMPT_post : String := "\n```\n"

/-- `USER_PROMPT_TEMPLATE.format(chunk_context=…, code_chunk=…)`
(source lines 106–108). -/
def USER_PROMPT_render (chunk_context code_chunk : List Char) : List Char :=
  USER_PROMPT_pre.toList ++ chunk_context ++ USER_PROMPT_mid.toList
    ++ code_chunk ++ USER_PROMPT_post.toList

/-- Source lines 104–108 of `upgrade_code_chunk`: when the context is
non-empty, the code sent in the template's Code section is the context,
a blank line, then the chunk; otherwise the chunk alone. -/
def build_user_prompt (code_chunk chunk_context : List Char) : List Char :=
  let combined_code :=
    if chunk_context.isEmpty then code_chunk
    else chunk_context ++ [ '\n', '\n' ] ++ code_chunk
  USER_PROMPT_render chunk_context combined_code

/-- Source lines 100–123: build the prompt, make the remote call (modelled
by the oracle `remote`, a function from the user prompt to an outcome);
on success return the model's content with no error logged, on any
exception log one error and return the original chunk.  The returned pair
is (result text, number of errors logged). -/
def upgrade_code_chunk (code_chunk chunk_context : List Char)
    (remote : List Char → RemoteOutcome) : List Char × Nat :=
  let user_prompt := build_user_prompt code_chunk chunk_context
  match remote user_prompt with
  | RemoteOutcome.success content => (content, 0)
  | RemoteOutcome.failure => (code_chunk, 1)

/-- The compatibility marker `"compatible"` (source line 142). -/
def compatibleML : List Char :=
  [ 'c', 'o', 'm', 'p', 'a', 't', 'i', 'b', 'l', 'e' ]

/-- Source line 137: the context passed to every chunk of a file — the
extracted context when the file splits into more than one chunk,
otherwise the empty string. -/
def file_context (original_code : List Char) : List Char :=
  if 1 < (chunk_text original_code CHUNK_SIZE).length then extract_context original_code
  else []

/-- Source lines 141–143, one iteration of the per-chunk loop: call the
upgrade, and if the stripped result equals the marker `"compatible"`,
substitute the original chunk. -/
def chunk_step (chunk context : List Char) (remoteCall : List Char → RemoteOutcome) : List Char :=
  let updated_chunk := (upgrade_code_chunk chunk context remoteCall).1
  if pyStrip updated_chunk = compatibleML then chunk else updated_chunk

/-- Source lines 139–144: the `for chunk in chunks` loop.  `remote i`
is the oracle for the i-th sequential remote call of this file;
the result is the list `updated_file_content` together with the total
number of errors logged. -/
def upgrade_loop : List (List Char) → List Char → (Nat → List Char → RemoteOutcome) → Nat →
    List (List Char) × Nat
  | [], _, _, _ => ([], 0)
  | chunk :: rest, context, remote, i =>
    let step := upgrade_code_chunk chunk context (remote i)
    let tail := upgrade_loop rest context remote (i + 1)
    ((if pyStrip step.1 = compatibleML then chunk else step.1) :: tail.1, step.2 + tail.2)

/-- The list `updated_file_content` built by `process_file` for a file
with the given content (source lines 135–144). -/
def updated_file_content (original_code : List Char)
    (remote : Nat → List Char → RemoteOutcome) : List (List Char) :=
  (upgrade_loop (chunk_text original_code CHUNK_SIZE) (file_context original_code) remote 0).1

/-- Source lines 126–151: process one file.  Returns the text written back
to the file (`"\n".join(updated_file_content)`, line 146) and the number of
errors logged during the chunk loop. -/
def process_file (original_code : List Char)
    (remote : Nat → List Char → RemoteOutcome) : List Char × Nat :=
  let r := upgrade_loop (chunk_text original_code CHUNK_SIZE) (file_context original_code) remote 0
  (joinNL r.1, r.2)

/-- The text contains at least one occurrence of any of the four
import/namespace/type/method patterns of `extract_context`. -/
def has_context_match (code : List Char) : Bool :=
  (research reNamespace code none).isSome
    || !(findall reUsing code).isEmpty
    || !(findall reClassDecl code).isEmpty
    || !(findall reMethodDecl code).isEmpty

/-- Observable effects of one `main` run (source lines 154–169): warnings
logged, tasks submitted to the pool (one per discovered file, each reading
its file once), and the writes performed (file name and written text). -/
structure MainRun where
  warnings : Nat
  tasks_submitted : Nat
  files_read : Nat
  writes : List (String × List Char)
  deriving DecidableEq

/-- Source lines 154–169: if discovery returned no files, log one warning
and return; otherwise submit one `process_file` task per file and wait for
all of them.  `contents` maps a file name to its text and `remote f` is
the oracle for file `f`'s sequence of remote calls. -/
def main_run (cs_files : List String) (contents : String → List Char)
    (remote : String → Nat → List Char → RemoteOutcome) : MainRun :=
  if cs_files.isEmpty then
    { warnings := 1, tasks_submitted := 0, files_read := 0, writes := [] }
  else
    { warnings := 0, tasks_submitted := cs_files.length, files_read := cs_files.length,
      writes := cs_files.map (fun f => (f, (process_file (contents f) (remote f)).1)) }

/-- Test fixture: a file beginning with a namespace declaration. -/
def sampleNsHeader : String := "namespace A\n"

theorem chunkGo_fuel_irrel (c : Nat) (hc : 0 < c) :
    ∀ (f1 f2 : Nat) (text : List Char),
      text.length ≤ f1 → text.length ≤ f2 →
      chunkGo c f1 text = chunkGo c f2 text := by
  intro f1
  induction f1 with
  | zero =>
    intro f2 text h1 _
    have : text = [] := List.length_eq_zero.mp (Nat.le_zero.mp h1)
    subst this
    cases f2 <;> rfl
  | succ a ih =>
    intro f2 text h1 h2
    cases text with
    | nil => cases f2 <;> rfl
    | cons x xs =>
      cases f2 with
      | zero => exact absurd h2 (by simp)
      | succ b =>
        simp only [chunkGo]
        congr 1
        apply ih
        · have : ((x :: xs).drop c).length = (x :: xs).length - c := List.length_drop c _
          omega
        · have : ((x :: xs).drop c).length = (x :: xs).length - c := List.length_drop c _
          omega

theorem chunk_text_nil (c : Nat) : chunk_text [] c = [] := rfl

theorem chunk_text_cons (text : List Char) (c : Nat) (hc : 0 < c) (ht : text ≠ []) :
    chunk_text text c = text.take c :: chunk_text (text.drop c) c := by
  cases text with
  | nil => exact absurd rfl ht
  | cons x xs =>
    show chunkGo c (x :: xs).length (x :: xs) = _
    have hlen : (x :: xs).length = xs.length + 1 := by simp
    rw [hlen]
    simp only [chunkGo]
    congr 1
    apply chunkGo_fuel_irrel c hc
    · have : ((x :: xs).drop c).length = (x :: xs).length - c := List.length_drop c _
      omega
    · exact Nat.le_refl _

theorem chunk_text_flatten (c : Nat) (hc : 0 < c) :
    ∀ (n : Nat) (text : List Char), text.length ≤ n →
      (chunk_text text c).flatten = text := by
  intro n
  induction n with
  | zero =>
    intro text h
    have : text = [] := List.length_eq_zero.mp (Nat.le_zero.mp h)
    subst this; rfl
  | succ m ih =>
    intro text h
    by_cases he : text = []
    · subst he; rfl
    · rw [chunk_text_cons text c hc he]
      rw [List.flatten_cons]
      rw [ih (text.drop c) (by
        have : (text.drop c).length = text.length - c := List.length_drop c _
        have hpos : 0 < text.length := List.length_pos.mpr he
        omega)]
      exact List.take_append_drop c text

theorem chunk_text_length (c : Nat) (hc : 0 < c) :
    ∀ (n : Nat) (text : List Char), text.length ≤ n →
      (chunk_text text c).length = (text.length + c - 1) / c := by
  intro n
  induction n with
  | zero =>
    intro text h
    have : text = [] := List.length_eq_zero.mp (Nat.le_zero.mp h)
    subst this
    rw [chunk_text_nil]
    simp only [List.length_nil]
    exact (Nat.div_eq_of_lt (by omega)).symm
  | succ m ih =>
    intro text h
    by_cases he : text = []
    · subst he
      rw [chunk_text_nil]
      simp only [List.length_nil]
      exact (Nat.div_eq_of_lt (by omega)).symm
    · rw [chunk_text_cons text c hc he]
      have hd : (text.drop c).length = text.length - c := List.length_drop c _
      have hpos : 0 < text.length := List.length_pos.mpr he
      rw [List.length_cons, ih (text.drop c) (by omega)]
      rw [hd]
      rcases Nat.lt_or_ge text.length (c + 1) with hle | hge
      · have h1 : text.length - c = 0 := by omega
        rw [h1]
        have h2 : (0 + c - 1) / c = 0 := Nat.div_eq_of_lt (by omega)
        have h3 : (text.length + c - 1) / c = 1 := by
          apply Nat.div_eq_of_lt_le <;> omega
        omega
      · have h1 : text.length - c + c - 1 = text.length - 1 - c + c := by omega
        rw [h1, Nat.add_div_right _ hc]
        have h2 : text.length + c - 1 = text.length - 1 + c := by omega
        rw [h2, Nat.add_div_right _ hc]
        have h3 : text.length - 1 = text.length - 1 - c + c := by omega
        rw [← Nat.add_div_right (text.length - 1 - c) hc, ← h3]

theorem chunk_text_mem_le (c : Nat) (hc : 0 < c) :
    ∀ (n : Nat) (text : List Char), text.length ≤ n →
      ∀ ch ∈ chunk_text text c, ch.length ≤ c := by
  intro n
  induction n with
  | zero =>
    intro text h ch hm
    have : text = [] := List.length_eq_zero.mp (Nat.le_zero.mp h)
    subst this
    simp [chunk_text_nil] at hm
  | succ m ih =>
    intro text h ch hm
    by_cases he : text = []
    · subst he; simp [chunk_text_nil] at hm
    · rw [chunk_text_cons text c hc he] at hm
      rcases List.mem_cons.mp hm with h1 | h2
      · subst h1
        simp only [List.length_take]
        exact Nat.min_le_left c text.length
      · exact ih (text.drop c) (by
          have : (text.drop c).length = text.length - c := List.length_drop c _
          have hpos : 0 < text.length := List.length_pos.mpr he
          omega) ch h2

theorem chunk_text_ne_nil (text : List Char) (c : Nat) (hc : 0 < c) :
    chunk_text text c ≠ [] ↔ text ≠ [] := by
  constructor
  · intro h he
    subst he
    exact h (chunk_text_nil c)
  · intro h
    rw [chunk_text_cons text c hc h]
    simp

theorem chunk_text_single (text : List Char) (c : Nat) (hc : 0 < c)
    (h1 : 0 < text.length) (h2 : text.length ≤ c) :
    chunk_text text c = [text] := by
  have he : text ≠ [] := by
    intro h; subst h; simp at h1
  rw [chunk_text_cons text c hc he]
  have hdrop : text.drop c = [] := List.drop_eq_nil_of_le h2
  rw [hdrop, chunk_text_nil, List.take_of_length_le h2]

theorem upgrade_loop_fst_length (context : List Char) (remote : Nat → List Char → RemoteOutcome) :
    ∀ (chunks : List (List Char)) (i0 : Nat),
      (upgrade_loop chunks context remote i0).1.length = chunks.length := by
  intro chunks
  induction chunks with
  | nil => intro i0; rfl
  | cons a t ih =>
    intro i0
    simp only [upgrade_loop, List.length_cons]
    rw [ih (i0 + 1)]

theorem upgrade_loop_fst_getElem (context : List Char) (remote : Nat → List Char → RemoteOutcome) :
    ∀ (chunks : List (List Char)) (i0 j : Nat),
      ((upgrade_loop chunks context remote i0).1)[j]? =
        (chunks[j]?).map (fun ch => chunk_step ch context (remote (i0 + j))) := by
  intro chunks
  induction chunks with
  | nil => intro i0 j; simp [upgrade_loop]
  | cons a t ih =>
    intro i0 j
    cases j with
    | zero =>
      simp only [upgrade_loop, List.getElem?_cons_zero, Option.map_some, Nat.add_zero]
      rfl
    | succ m =>
      simp only [upgrade_loop, List.getElem?_cons_succ]
      rw [ih (i0 + 1) m]
      have : i0 + 1 + m = i0 + (m + 1) := by omega
      rw [this]

theorem process_file_fst (original_code : List Char) (remote : Nat → List Char → RemoteOutcome) :
    (process_file original_code remote).1 = joinNL (updated_file_content original_code remote) := rfl

theorem upgrade_code_chunk_success (ch ctx content : List Char) (r : List Char → RemoteOutcome)
    (hr : r (build_user_prompt ch ctx) = RemoteOutcome.success content) :
    upgrade_code_chunk ch ctx r = (content, 0) := by
  simp only [upgrade_code_chunk]
  rw [hr]

theorem upgrade_code_chunk_failure (ch ctx : List Char) (r : List Char → RemoteOutcome)
    (hr : r (build_user_prompt ch ctx) = RemoteOutcome.failure) :
    upgrade_code_chunk ch ctx r = (ch, 1) := by
  simp only [upgrade_code_chunk]
  rw [hr]

theorem chunk_step_compatible (ch ctx content : List Char) (r : List Char → RemoteOutcome)
    (hr : r (build_user_prompt ch ctx) = RemoteOutcome.success content)
    (hcm : pyStrip content = compatibleML) :
    chunk_step ch ctx r = ch := by
  simp only [chunk_step]
  rw [upgrade_code_chunk_success ch ctx content r hr]
  simp [hcm]

theorem chunk_step_failure (ch ctx : List Char) (r : List Char → RemoteOutcome)
    (hr : r (build_user_prompt ch ctx) = RemoteOutcome.failure) :
    chunk_step ch ctx r = ch := by
  simp only [chunk_step]
  rw [upgrade_code_chunk_failure ch ctx r hr]
  simp

/-- Claim C1: for every input text of length L and chunk size C > 0,
`chunk_text` produces exactly ceil(L/C) chunks (zero when L = 0), every
chunk has length at most C, and their concatenation equals the input text
(so the chunks are non-overlapping contiguous substrings in order). -/
theorem chunk_text_correct (text : List Char) (C : Nat) (hC : 0 < C) :
    (chunk_text text C).length = (text.length + C - 1) / C ∧
    (text.length = 0 → chunk_text text C = []) ∧
    (∀ ch ∈ chunk_text text C, ch.length ≤ C) ∧
    (chunk_text text C).flatten = text := by
  refine ⟨chunk_text_length C hC text.length text (Nat.le_refl _), ?_,
    chunk_text_mem_le C hC text.length text (Nat.le_refl _),
    chunk_text_flatten C hC text.length text (Nat.le_refl _)⟩
  intro h0
  have : text = [] := List.length_eq_zero.mp h0
  subst this
  exact chunk_text_nil C

theorem chunk_text_correct_witness :
    (chunk_text [ 'a', 'b', 'c', 'd', 'e' ] 2).length =
      (([ 'a', 'b', 'c', 'd', 'e' ] : List Char).length + 2 - 1) / 2 ∧
    (([ 'a', 'b', 'c', 'd', 'e' ] : List Char).length = 0 →
      chunk_text [ 'a', 'b', 'c', 'd', 'e' ] 2 = []) ∧
    (∀ ch ∈ chunk_text [ 'a', 'b', 'c', 'd', 'e' ] 2, ch.length ≤ 2) ∧
    (chunk_text [ 'a', 'b', 'c', 'd', 'e' ] 2).flatten = [ 'a', 'b', 'c', 'd', 'e' ] :=
  chunk_text_correct [ 'a', 'b', 'c', 'd', 'e' ] 2 (by decide)

/-- Claim C8: for every text and chunk size C > 0, `chunk_text` terminates
(it is a total function), is deterministic (two runs on equal inputs give
equal outputs), and returns a non-empty chunk list exactly when the text
is non-empty. -/
theorem chunk_text_total_pure (text : List Char) (C : Nat) (hC : 0 < C) :
    chunk_text text C = chunk_text text C ∧ (chunk_text text C ≠ [] ↔ text ≠ []) :=
  ⟨rfl, chunk_text_ne_nil text C hC⟩

theorem chunk_text_total_pure_witness :
    chunk_text [ 'q' ] 3 = chunk_text [ 'q' ] 3 ∧
    (chunk_text [ 'q' ] 3 ≠ [] ↔ ([ 'q' ] : List Char) ≠ []) :=
  chunk_text_total_pure [ 'q' ] 3 (by decide)

/-- Claim C9: when discovery returns zero files, the driver logs exactly
one warning, submits no tasks, performs no file reads or writes, and
returns successfully (it is a total function returning the no-work
record). -/
theorem main_run_no_files (contents : String → List Char)
    (remote : String → Nat → List Char → RemoteOutcome) :
    main_run [] contents remote =
      { warnings := 1, tasks_submitted := 0, files_read := 0, writes := [] } := rfl

/-- Claim C10: when the file-level context is non-empty, the built user
prompt contains the context twice — once after the "Chunk context (from
entire file):" label and once again, separated from the chunk by a blank
line, inside the Code section; when the context is empty the Code section
holds the chunk alone. -/
theorem build_user_prompt_structure (code_chunk chunk_context : List Char) :
    (chunk_context ≠ [] →
      build_user_prompt code_chunk chunk_context =
        USER_PROMPT_pre.toList ++ chunk_context ++ USER_PROMPT_mid.toList
          ++ (chunk_context ++ [ '\n', '\n' ] ++ code_chunk) ++ USER_PROMPT_post.toList) ∧
    (chunk_context = [] →
      build_user_prompt code_chunk chunk_context =
        USER_PROMPT_pre.toList ++ USER_PROMPT_mid.toList ++ code_chunk
          ++ USER_PROMPT_post.toList) := by
  constructor
  · intro hne
    unfold build_user_prompt USER_PROMPT_render
    rw [if_neg (by simpa using hne)]
  · intro he
    subst he
    simp [build_user_prompt, USER_PROMPT_render]

theorem build_user_prompt_structure_witness :
    build_user_prompt [ 'x' ] [ 'c' ] =
      USER_PROMPT_pre.toList ++ [ 'c' ] ++ USER_PROMPT_mid.toList
        ++ ([ 'c' ] ++ [ '\n', '\n' ] ++ [ 'x' ]) ++ USER_PROMPT_post.toList ∧
    build_user_prompt [ 'x' ] [] =
      USER_PROMPT_pre.toList ++ USER_PROMPT_mid.toList ++ [ 'x' ]
        ++ USER_PROMPT_post.toList :=
  ⟨(build_user_prompt_structure [ 'x' ] [ 'c' ]).1 (by decide),
   (build_user_prompt_structure [ 'x' ] []).2 rfl⟩

/-- Claim C2: for every chunk of a processed file, if the remote call for
that chunk returns content whose stripped form equals the marker
"compatible", the entry placed at that chunk's position of the reassembled
list is the original chunk verbatim, and the written file text is the
join of that list. -/
theorem compatible_marker_preserves_chunk (original_code : List Char)
    (remote : Nat → List Char → RemoteOutcome) (j : Nat) (chunk content : List Char)
    (hchunk : (chunk_text original_code CHUNK_SIZE)[j]? = some chunk)
    (hret : remote j (build_user_prompt chunk (file_context original_code)) =
      RemoteOutcome.success content)
    (hcompat : pyStrip content = compatibleML) :
    (updated_file_content original_code remote)[j]? = some chunk ∧
    (process_file original_code remote).1 = joinNL (updated_file_content original_code remote) := by
  refine ⟨?_, process_file_fst original_code remote⟩
  unfold updated_file_content
  rw [upgrade_loop_fst_getElem, hchunk]
  simp only [Option.map_some']
  have hstep : chunk_step chunk (file_context original_code) (remote (0 + j)) = chunk := by
    rw [Nat.zero_add]
    exact chunk_step_compatible chunk (file_context original_code) content (remote j) hret hcompat
  rw [hstep]

theorem compatible_marker_preserves_chunk_witness :
    (updated_file_content [ 'h', 'i' ]
        (fun _ _ => RemoteOutcome.success compatibleML))[0]? = some [ 'h', 'i' ] ∧
    (process_file [ 'h', 'i' ] (fun _ _ => RemoteOutcome.success compatibleML)).1 =
      joinNL (updated_file_content [ 'h', 'i' ]
        (fun _ _ => RemoteOutcome.success compatibleML)) :=
  compatible_marker_preserves_chunk [ 'h', 'i' ]
    (fun _ _ => RemoteOutcome.success compatibleML) 0 [ 'h', 'i' ] compatibleML
    (by decide) rfl (by decide)

/-- Claim C3: if the remote call for a chunk fails, `upgrade_code_chunk`
returns the original chunk with exactly one error logged; the per-file
result list still contains one entry per chunk (no abort), and the failed
chunk's entry is the original chunk verbatim. -/
theorem remote_failure_keeps_chunk (original_code : List Char)
    (remote : Nat → List Char → RemoteOutcome) (j : Nat) (chunk : List Char) :
    (∀ (ch ctx : List Char) (r : List Char → RemoteOutcome),
        r (build_user_prompt ch ctx) = RemoteOutcome.failure →
        upgrade_code_chunk ch ctx r = (ch, 1)) ∧
    (updated_file_content original_code remote).length =
      (chunk_text original_code CHUNK_SIZE).length ∧
    ((chunk_text original_code CHUNK_SIZE)[j]? = some chunk →
      remote j (build_user_prompt chunk (file_context original_code)) = RemoteOutcome.failure →
      (updated_file_content original_code remote)[j]? = some chunk) := by
  refine ⟨?_, ?_, ?_⟩
  · intro ch ctx r hr
    exact upgrade_code_chunk_failure ch ctx r hr
  · unfold updated_file_content
    exact upgrade_loop_fst_length _ _ _ 0
  · intro hchunk hfail
    unfold updated_file_content
    rw [upgrade_loop_fst_getElem, hchunk]
    simp only [Option.map_some']
    have hstep : chunk_step chunk (file_context original_code) (remote (0 + j)) = chunk := by
      rw [Nat.zero_add]
      exact chunk_step_failure chunk (file_context original_code) (remote j) hfail
    rw [hstep]

theorem remote_failure_keeps_chunk_witness :
    upgrade_code_chunk [ 'a' ] [] (fun _ => RemoteOutcome.failure) = ([ 'a' ], 1) ∧
    (updated_file_content [ 'h', 'i' ] (fun _ _ => RemoteOutcome.failure)).length =
      (chunk_text [ 'h', 'i' ] CHUNK_SIZE).length ∧
    (updated_file_content [ 'h', 'i' ] (fun _ _ => RemoteOutcome.failure))[0]? =
      some [ 'h', 'i' ] :=
  ⟨(remote_failure_keeps_chunk [ 'h', 'i' ] (fun _ _ => RemoteOutcome.failure) 0
      [ 'h', 'i' ]).1 [ 'a' ] [] (fun _ => RemoteOutcome.failure) rfl,
   (remote_failure_keeps_chunk [ 'h', 'i' ] (fun _ _ => RemoteOutcome.failure) 0
      [ 'h', 'i' ]).2.1,
   (remote_failure_keeps_chunk [ 'h', 'i' ] (fun _ _ => RemoteOutcome.failure) 0
      [ 'h', 'i' ]).2.2 (by decide) rfl⟩

/-- Claim C5: a file that yields exactly one chunk (non-empty text of
length at most the chunk size) whose remote call returns text stripping
to "compatible" is written back unchanged: the one-element join inserts
no separator. -/
theorem single_chunk_compatible_roundtrip (original_code : List Char)
    (remote : Nat → List Char → RemoteOutcome) (content : List Char)
    (h1 : 0 < original_code.length) (h2 : original_code.length ≤ CHUNK_SIZE)
    (hret : remote 0 (build_user_prompt original_code (file_context original_code)) =
      RemoteOutcome.success content)
    (hcompat : pyStrip content = compatibleML) :
    (process_file original_code remote).1 = original_code := by
  have hCpos : 0 < CHUNK_SIZE := by norm_num [CHUNK_SIZE]
  have hchunks : chunk_text original_code CHUNK_SIZE = [original_code] :=
    chunk_text_single original_code CHUNK_SIZE hCpos h1 h2
  have hctx : file_context original_code = [] := by
    unfold file_context
    rw [hchunks]
    simp
  rw [hctx] at hret
  have heq : (process_file original_code remote).1 =
      joinNL ((upgrade_loop (chunk_text original_code CHUNK_SIZE)
        (file_context original_code) remote 0).1) := rfl
  rw [heq, hchunks, hctx]
  have hloop : (upgrade_loop [original_code] [] remote 0).1 =
      [chunk_step original_code [] (remote 0)] := rfl
  rw [hloop, chunk_step_compatible original_code [] content (remote 0) hret hcompat]
  rfl

theorem single_chunk_compatible_roundtrip_witness :
    (process_file [ 'x' ] (fun _ _ => RemoteOutcome.success compatibleML)).1 = [ 'x' ] :=
  single_chunk_compatible_roundtrip [ 'x' ] (fun _ _ => RemoteOutcome.success compatibleML)
    compatibleML (by decide) (by norm_num [CHUNK_SIZE]) rfl (by decide)

theorem upgrade_loop_all_compatible (context : List Char)
    (remote : Nat → List Char → RemoteOutcome)
    (hrem : ∀ i p, ∃ content, remote i p = RemoteOutcome.success content ∧
      pyStrip content = compatibleML) :
    ∀ (chunks : List (List Char)) (i0 : Nat), (upgrade_loop chunks context remote i0).1 = chunks := by
  intro chunks
  induction chunks with
  | nil => intro i0; rfl
  | cons a t ih =>
    intro i0
    obtain ⟨content, hr, hcm⟩ := hrem i0 (build_user_prompt a context)
    have hcs : chunk_step a context (remote i0) = a :=
      chunk_step_compatible a context content (remote i0) hr hcm
    have hstep : (upgrade_loop (a :: t) context remote i0).1 =
        chunk_step a context (remote i0) :: (upgrade_loop t context remote (i0 + 1)).1 := rfl
    rw [hstep, hcs, ih (i0 + 1)]

theorem joinNL_length : ∀ (l : List (List Char)), l ≠ [] →
    (joinNL l).length = (l.map List.length).sum + (l.length - 1) := by
  intro l
  induction l with
  | nil => intro h; exact absurd rfl h
  | cons x t ih =>
    intro _
    cases t with
    | nil => simp [joinNL, joinSep]
    | cons y t2 =>
      have hx : joinNL (x :: y :: t2) = x ++ [ '\n' ] ++ joinNL (y :: t2) := rfl
      rw [hx]
      simp only [List.length_append, List.length_cons, List.map_cons, List.sum_cons,
        List.length_nil]
      rw [ih (by simp)]
      simp only [List.map_cons, List.sum_cons, List.length_cons]
      omega

/-- Claim C4: a file of length 250,000 with chunk size 200,000 produces
exactly the two chunks `take 200000` and `drop 200000` (of lengths 200,000
and 50,000); the context is extracted once from the whole file and that
same value is the context of both chunk upgrade calls; the written text is
the first chunk's result, one newline, then the second chunk's result. -/
theorem two_chunk_file_structure (text : List Char)
    (remote : Nat → List Char → RemoteOutcome) (hlen : text.length = 250000) :
    chunk_text text CHUNK_SIZE = [text.take CHUNK_SIZE, text.drop CHUNK_SIZE] ∧
    (text.take CHUNK_SIZE).length = 200000 ∧
    (text.drop CHUNK_SIZE).length = 50000 ∧
    file_context text = extract_context text ∧
    (process_file text remote).1 =
      chunk_step (text.take CHUNK_SIZE) (extract_context text) (remote 0)
        ++ [ '\n' ] ++ chunk_step (text.drop CHUNK_SIZE) (extract_context text) (remote 1) := by
  have hCpos : (0:Nat) < CHUNK_SIZE := by norm_num [CHUNK_SIZE]
  have hC : CHUNK_SIZE = 200000 := rfl
  have hne : text ≠ [] := by
    intro h
    rw [h] at hlen
    simp at hlen
  have hdlen : (text.drop CHUNK_SIZE).length = 50000 := by
    rw [List.length_drop, hlen, hC]
  have htlen : (text.take CHUNK_SIZE).length = 200000 := by
    rw [List.length_take, hlen, hC]
    omega
  have hchunks : chunk_text text CHUNK_SIZE = [text.take CHUNK_SIZE, text.drop CHUNK_SIZE] := by
    rw [chunk_text_cons text CHUNK_SIZE hCpos hne]
    congr 1
    apply chunk_text_single _ _ hCpos
    · rw [hdlen]
      norm_num
    · rw [hdlen, hC]
      norm_num
  have hfc : file_context text = extract_context text := by
    unfold file_context
    rw [hchunks]
    simp
  refine ⟨hchunks, htlen, hdlen, hfc, ?_⟩
  have heq : (process_file text remote).1 =
      joinNL ((upgrade_loop (chunk_text text CHUNK_SIZE)
        (file_context text) remote 0).1) := rfl
  rw [heq, hchunks, hfc]
  have hloop : (upgrade_loop [text.take CHUNK_SIZE, text.drop CHUNK_SIZE]
      (extract_context text) remote 0).1 =
      [chunk_step (text.take CHUNK_SIZE) (extract_context text) (remote 0),
       chunk_step (text.drop CHUNK_SIZE) (extract_context text) (remote 1)] := rfl
  rw [hloop]
  rfl

theorem two_chunk_file_structure_witness :
    chunk_text (List.replicate 250000 'a') CHUNK_SIZE =
      [(List.replicate 250000 'a').take CHUNK_SIZE, (List.replicate 250000 'a').drop CHUNK_SIZE] ∧
    ((List.replicate 250000 'a').take CHUNK_SIZE).length = 200000 ∧
    ((List.replicate 250000 'a').drop CHUNK_SIZE).length = 50000 ∧
    file_context (List.replicate 250000 'a') = extract_context (List.replicate 250000 'a') ∧
    (process_file (List.replicate 250000 'a') (fun _ _ => RemoteOutcome.failure)).1 =
      chunk_step ((List.replicate 250000 'a').take CHUNK_SIZE)
          (extract_context (List.replicate 250000 'a')) ((fun _ _ => RemoteOutcome.failure) 0)
        ++ [ '\n' ] ++ chunk_step ((List.replicate 250000 'a').drop CHUNK_SIZE)
          (extract_context (List.replicate 250000 'a')) ((fun _ _ => RemoteOutcome.failure) 1) :=
  two_chunk_file_structure (List.replicate 250000 'a') (fun _ _ => RemoteOutcome.failure)
    (List.length_replicate 250000 'a')

/-- Claim C7: when a file splits into n > 1 chunks and every remote call
returns text stripping to the marker "compatible", the written text is the
chunks joined with one newline at each of the n−1 boundaries: its length
is the original length plus n−1 and it is not byte-identical to the
original file. -/
theorem multi_chunk_compatible_alters_file (text : List Char)
    (remote : Nat → List Char → RemoteOutcome)
    (hn : 1 < (chunk_text text CHUNK_SIZE).length)
    (hrem : ∀ i p, ∃ content, remote i p = RemoteOutcome.success content ∧
      pyStrip content = compatibleML) :
    (process_file text remote).1 = joinNL (chunk_text text CHUNK_SIZE) ∧
    (process_file text remote).1.length =
      text.length + ((chunk_text text CHUNK_SIZE).length - 1) ∧
    (process_file text remote).1 ≠ text := by
  have hCpos : (0:Nat) < CHUNK_SIZE := by norm_num [CHUNK_SIZE]
  have h1 : (process_file text remote).1 = joinNL (chunk_text text CHUNK_SIZE) := by
    have heq : (process_file text remote).1 =
        joinNL ((upgrade_loop (chunk_text text CHUNK_SIZE)
          (file_context text) remote 0).1) := rfl
    rw [heq, upgrade_loop_all_compatible _ _ hrem _ 0]
  have hne : chunk_text text CHUNK_SIZE ≠ [] := by
    intro h
    rw [h] at hn
    simp at hn
  have hsum : ((chunk_text text CHUNK_SIZE).map List.length).sum = text.length := by
    rw [← List.length_flatten,
      chunk_text_flatten CHUNK_SIZE hCpos text.length text (Nat.le_refl _)]
  have h2 : (process_file text remote).1.length =
      text.length + ((chunk_text text CHUNK_SIZE).length - 1) := by
    rw [h1, joinNL_length _ hne, hsum]
  refine ⟨h1, h2, ?_⟩
  intro hbad
  have hlen2 := congrArg List.length hbad
  rw [h2] at hlen2
  omega

theorem multi_chunk_compatible_alters_file_witness :
    1 < (chunk_text (List.replicate 200001 'a') CHUNK_SIZE).length ∧
    (process_file (List.replicate 200001 'a')
      (fun _ _ => RemoteOutcome.success compatibleML)).1 ≠ List.replicate 200001 'a' := by
  have hn : 1 < (chunk_text (List.replicate 200001 'a') CHUNK_SIZE).length := by
    have h := chunk_text_length CHUNK_SIZE (by norm_num [CHUNK_SIZE])
      (List.replicate 200001 'a').length (List.replicate 200001 'a') (Nat.le_refl _)
    rw [h]
    simp only [List.length_replicate]
    norm_num [CHUNK_SIZE]
  refine ⟨hn, ?_⟩
  exact (multi_chunk_compatible_alters_file (List.replicate 200001 'a')
    (fun _ _ => RemoteOutcome.success compatibleML) hn
    (fun _ _ => ⟨compatibleML, rfl, by decide⟩)).2.2

theorem firstSome_eq_some {α : Type} (f : Nat → Option α) :
    ∀ (is : List Nat) (res : α), firstSome f is = some res → ∃ i ∈ is, f i = some res := by
  intro is
  induction is with
  | nil =>
    intro res h
    exact absurd h (by simp [firstSome])
  | cons i t ih =>
    intro res h
    simp only [firstSome] at h
    cases hf : f i with
    | some a =>
      rw [hf] at h
      exact ⟨i, List.mem_cons_self i t, by rw [hf]; exact h⟩
    | none =>
      rw [hf] at h
      obtain ⟨j, hj, hjf⟩ := ih res h
      exact ⟨j, List.mem_cons_of_mem i hj, hjf⟩

theorem reMatch_bol_inv (s : List Char) (prev : Option Char) (g : Captures)
    (k : List Char → Option Char → Captures → Option (Captures × List Char))
    (res : Captures × List Char) (h : reMatch RE.bol s prev g k = some res) :
    k s prev g = some res := by
  simp only [reMatch] at h
  split at h
  · exact h
  · exact absurd h (by simp)

theorem reMatch_lit_inv (t s : List Char) (prev : Option Char) (g : Captures)
    (k : List Char → Option Char → Captures → Option (Captures × List Char))
    (res : Captures × List Char) (h : reMatch (RE.lit t) s prev g k = some res) :
    s.take t.length = t ∧
      k (s.drop t.length) (prevAfter prev (s.take t.length)) g = some res := by
  simp only [reMatch] at h
  split at h
  next hcond => exact ⟨hcond, h⟩
  next => exact absurd h (by simp)

theorem reMatch_starG_inv (f : Char → Bool) (s : List Char) (prev : Option Char) (g : Captures)
    (k : List Char → Option Char → Captures → Option (Captures × List Char))
    (res : Captures × List Char) (h : reMatch (RE.starG f) s prev g k = some res) :
    ∃ i, i ≤ s.length ∧ k (s.drop i) (prevAfter prev (s.take i)) g = some res := by
  simp only [reMatch] at h
  obtain ⟨i, hi, hfi⟩ := firstSome_eq_some _ _ res h
  rw [List.mem_reverse, List.mem_range] at hi
  have hn : (s.takeWhile f).length ≤ s.length :=
    List.Sublist.length_le (List.takeWhile_sublist f)
  exact ⟨i, by omega, hfi⟩

theorem reMatch_window (r : RE) :
    ∀ (s : List Char) (prev : Option Char) (g : Captures)
      (k : List Char → Option Char → Captures → Option (Captures × List Char))
      (res : Captures × List Char),
      reMatch r s prev g k = some res →
      ∃ n p2 g2, n ≤ s.length ∧ k (s.drop n) p2 g2 = some res := by
  induction r with
  | cls f =>
    intro s prev g k res h
    cases s with
    | nil => exact absurd h (by simp [reMatch])
    | cons c rest =>
      simp only [reMatch] at h
      split at h
      next => exact ⟨1, some c, g, by simp, h⟩
      next => exact absurd h (by simp)
  | lit t =>
    intro s prev g k res h
    obtain ⟨ht, hk⟩ := reMatch_lit_inv t s prev g k res h
    have hlen : t.length ≤ s.length := by
      have h2 := congrArg List.length ht
      rw [List.length_take] at h2
      omega
    exact ⟨t.length, prevAfter prev (s.take t.length), g, hlen, hk⟩
  | starG f =>
    intro s prev g k res h
    obtain ⟨i, hi, hk⟩ := reMatch_starG_inv f s prev g k res h
    exact ⟨i, prevAfter prev (s.take i), g, hi, hk⟩
  | starL f =>
    intro s prev g k res h
    simp only [reMatch] at h
    obtain ⟨i, hi, hfi⟩ := firstSome_eq_some _ _ res h
    rw [List.mem_range] at hi
    have hn : (s.takeWhile f).length ≤ s.length :=
      List.Sublist.length_le (List.takeWhile_sublist f)
    exact ⟨i, prevAfter prev (s.take i), g, by omega, hfi⟩
  | plusG f =>
    intro s prev g k res h
    simp only [reMatch] at h
    obtain ⟨i, hi, hfi⟩ := firstSome_eq_some _ _ res h
    rw [List.mem_reverse] at hi
    have hi2 := (List.mem_range'_1).mp hi
    have hn : (s.takeWhile f).length ≤ s.length :=
      List.Sublist.length_le (List.takeWhile_sublist f)
    exact ⟨i, prevAfter prev (s.take i), g, by omega, hfi⟩
  | seq a b iha ihb =>
    intro s prev g k res h
    have h2 : reMatch a s prev g (fun s2 p2 g2 => reMatch b s2 p2 g2 k) = some res := h
    obtain ⟨n1, p1, g1, hn1, hk1⟩ := iha s prev g _ res h2
    have hk1b : reMatch b (s.drop n1) p1 g1 k = some res := hk1
    obtain ⟨n2, p2, g2, hn2, hk2⟩ := ihb (s.drop n1) p1 g1 k res hk1b
    rw [List.drop_drop] at hk2
    rw [List.length_drop] at hn2
    exact ⟨n1 + n2, p2, g2, by omega, hk2⟩
  | alt a b iha ihb =>
    intro s prev g k res h
    simp only [reMatch] at h
    cases hm : reMatch a s prev g k with
    | some r2 =>
      rw [hm] at h
      have hr2 : r2 = res := Option.some.inj h
      subst hr2
      exact iha s prev g k r2 hm
    | none =>
      rw [hm] at h
      exact ihb s prev g k res h
  | opt a iha =>
    intro s prev g k res h
    simp only [reMatch] at h
    cases hm : reMatch a s prev g k with
    | some r2 =>
      rw [hm] at h
      have hr2 : r2 = res := Option.some.inj h
      subst hr2
      exact iha s prev g k r2 hm
    | none =>
      rw [hm] at h
      exact ⟨0, prev, g, Nat.zero_le _, h⟩
  | grp i a iha =>
    intro s prev g k res h
    have h2 : reMatch a s prev g
        (fun s2 p2 g2 => k s2 p2 (g2 ++ [(i, s.take (s.length - s2.length))])) = some res := h
    obtain ⟨n, p2, g2, hn, hk⟩ := iha s prev g _ res h2
    exact ⟨n, p2, g2 ++ [(i, s.take (s.length - (s.drop n).length))], hn, hk⟩
  | bol =>
    intro s prev g k res h
    have h2 := reMatch_bol_inv s prev g k res h
    exact ⟨0, prev, g, Nat.zero_le _, h2⟩

theorem reMatch_reUsing_window (s : List Char) (prev : Option Char) (g : Captures)
    (k : List Char → Option Char → Captures → Option (Captures × List Char))
    (res : Captures × List Char) (h : reMatch reUsing s prev g k = some res) :
    ∃ n p2 g2, n ≤ s.length ∧ k (s.drop n) p2 g2 = some res ∧
      ∃ c, c ∈ s.take n ∧ isPySpace c = false := by
  have h0 : reMatch RE.bol s prev g
      (fun s1 p1 g1 => reMatch (RE.starG isPySpace) s1 p1 g1
        (fun s2 p2 g2 => reMatch (RE.lit usingKw) s2 p2 g2
          (fun s3 p3 g3 => reMatch
            (RE.seq (RE.plusG isPySpace) (RE.seq (RE.plusG isWordDotChar)
              (RE.cls (fun c => c = ';')))) s3 p3 g3 k))) = some res := h
  have h1 : reMatch (RE.starG isPySpace) s prev g
      (fun s2 p2 g2 => reMatch (RE.lit usingKw) s2 p2 g2
        (fun s3 p3 g3 => reMatch
          (RE.seq (RE.plusG isPySpace) (RE.seq (RE.plusG isWordDotChar)
            (RE.cls (fun c => c = ';')))) s3 p3 g3 k)) = some res :=
    reMatch_bol_inv s prev g _ res h0
  obtain ⟨i, hi, hk2⟩ := reMatch_starG_inv isPySpace s prev g _ res h1
  have h2 : reMatch (RE.lit usingKw) (s.drop i) (prevAfter prev (s.take i)) g
      (fun s3 p3 g3 => reMatch
        (RE.seq (RE.plusG isPySpace) (RE.seq (RE.plusG isWordDotChar)
          (RE.cls (fun c => c = ';')))) s3 p3 g3 k) = some res := hk2
  obtain ⟨htake, hk3⟩ := reMatch_lit_inv usingKw (s.drop i) (prevAfter prev (s.take i)) g _ res h2
  have h3 : reMatch
      (RE.seq (RE.plusG isPySpace) (RE.seq (RE.plusG isWordDotChar)
        (RE.cls (fun c => c = ';'))))
      ((s.drop i).drop usingKw.length)
      (prevAfter (prevAfter prev (s.take i)) ((s.drop i).take usingKw.length)) g k =
      some res := hk3
  obtain ⟨m, p3, g3, hm, hk4⟩ := reMatch_window _ _ _ _ _ _ h3
  rw [List.drop_drop, List.drop_drop] at hk4
  have hL : usingKw.length ≤ (s.drop i).length := by
    have h4 := congrArg List.length htake
    rw [List.length_take] at h4
    omega
  rw [List.length_drop] at hL
  rw [List.length_drop, List.length_drop] at hm
  refine ⟨i + (usingKw.length + m), p3, g3, by omega, ?_, 'u', ?_, by decide⟩
  · exact hk4
  · rw [List.take_add]
    apply List.mem_append.mpr
    right
    rw [List.take_add]
    apply List.mem_append.mpr
    left
    rw [htake]
    decide

theorem research_some (r : RE) :
    ∀ (s : List Char) (prev : Option Char) (i : Nat) (g : Captures) (rest : List Char),
      research r s prev = some (i, g, rest) →
      ∃ p, reMatch r (s.drop i) p [] (fun s2 _ g2 => some (g2, s2)) = some (g, rest) := by
  intro s
  induction s with
  | nil =>
    intro prev i g rest h
    simp only [research] at h
    cases hm : reMatch r [] prev [] (fun s2 _ g2 => some (g2, s2)) with
    | some pr =>
      obtain ⟨g0, rest0⟩ := pr
      rw [hm] at h
      have h2 : some ((0 : Nat), g0, rest0) = some (i, g, rest) := h
      rw [Option.some.injEq, Prod.mk.injEq, Prod.mk.injEq] at h2
      obtain ⟨hi0, hg0, hr0⟩ := h2
      subst hi0
      subst hg0
      subst hr0
      exact ⟨prev, hm⟩
    | none =>
      rw [hm] at h
      exact Option.noConfusion h
  | cons c tail ih =>
    intro prev i g rest h
    simp only [research] at h
    cases hm : reMatch r (c :: tail) prev [] (fun s2 _ g2 => some (g2, s2)) with
    | some pr =>
      obtain ⟨g0, rest0⟩ := pr
      rw [hm] at h
      have h2 : some ((0 : Nat), g0, rest0) = some (i, g, rest) := h
      rw [Option.some.injEq, Prod.mk.injEq, Prod.mk.injEq] at h2
      obtain ⟨hi0, hg0, hr0⟩ := h2
      subst hi0
      subst hg0
      subst hr0
      exact ⟨prev, hm⟩
    | none =>
      rw [hm] at h
      cases hr : research r tail (some c) with
      | none =>
        rw [hr] at h
        exact Option.noConfusion h
      | some trip =>
        obtain ⟨j, g1, rest1⟩ := trip
        rw [hr] at h
        have h2 : some (j + 1, g1, rest1) = some (i, g, rest) := h
        rw [Option.some.injEq, Prod.mk.injEq, Prod.mk.injEq] at h2
        obtain ⟨hj, hg1, hr1⟩ := h2
        subst hg1
        subst hr1
        obtain ⟨p, hp⟩ := ih (some c) j g1 rest1 hr
        refine ⟨p, ?_⟩
        rw [← hj]
        exact hp

theorem findallAux_reUsing_nonspace :
    ∀ (fuel : Nat) (s : List Char) (prev : Option Char) (m0 : List Char) (g : Captures),
      (m0, g) ∈ findallAux reUsing fuel s prev →
      ∃ c, c ∈ m0 ∧ isPySpace c = false := by
  intro fuel
  induction fuel with
  | zero =>
    intro s prev m0 g hm
    exact absurd hm (by simp [findallAux])
  | succ f ih =>
    intro s prev m0 g hm
    simp only [findallAux] at hm
    cases hres : research reUsing s prev with
    | none =>
      rw [hres] at hm
      exact absurd hm (by simp)
    | some trip =>
      obtain ⟨i, g1, rest⟩ := trip
      rw [hres] at hm
      obtain ⟨p, hp⟩ := research_some reUsing s prev i g1 rest hres
      obtain ⟨n, p2, g2, hn, hk, c, hcmem, hcns⟩ :=
        reMatch_reUsing_window (s.drop i) p [] _ (g1, rest) hp
      have hk2 : (some (g2, (s.drop i).drop n) : Option (Captures × List Char)) =
          some (g1, rest) := hk
      rw [Option.some.injEq, Prod.mk.injEq] at hk2
      obtain ⟨hg2, hrest⟩ := hk2
      have hlen : (s.drop i).length - rest.length = n := by
        rw [← hrest]
        simp only [List.length_drop] at hn ⊢
        omega
      have hm2 : (m0, g) ∈
          (if ((s.drop i).take ((s.drop i).length - rest.length)).length = 0 then
            (match rest with
             | [] => [((s.drop i).take ((s.drop i).length - rest.length), g1)]
             | c2 :: tail2 => ((s.drop i).take ((s.drop i).length - rest.length), g1) ::
                 findallAux reUsing f tail2 (some c2))
          else ((s.drop i).take ((s.drop i).length - rest.length), g1) ::
            findallAux reUsing f rest
              (prevAfter (prevAfter prev (s.take i))
                ((s.drop i).take ((s.drop i).length - rest.length)))) := hm
      rw [hlen] at hm2
      have hlen0 : ¬ ((s.drop i).take n).length = 0 := by
        intro h0
        rw [List.length_eq_zero] at h0
        rw [h0] at hcmem
        exact absurd hcmem (List.not_mem_nil c)
      rw [if_neg hlen0] at hm2
      rcases List.mem_cons.mp hm2 with hhead | htail
      · have hfst : m0 = (s.drop i).take n := congrArg Prod.fst hhead
        rw [hfst]
        exact ⟨c, hcmem, hcns⟩
      · exact ih rest _ m0 g htail

theorem mem_joinSep (sep : List Char) (c : Char) :
    ∀ (l : List (List Char)) (x : List Char), x ∈ l → c ∈ x → c ∈ joinSep sep l := by
  intro l
  induction l with
  | nil =>
    intro x hx _
    exact absurd hx (List.not_mem_nil x)
  | cons a t ih =>
    intro x hx hc
    cases t with
    | nil =>
      rcases List.mem_cons.mp hx with h1 | h2
      · exact h1 ▸ hc
      · exact absurd h2 (List.not_mem_nil x)
    | cons b t2 =>
      have hj : joinSep sep (a :: b :: t2) = a ++ sep ++ joinSep sep (b :: t2) := rfl
      rw [hj]
      rcases List.mem_cons.mp hx with h1 | h2
      · subst h1
        exact List.mem_append.mpr (Or.inl (List.mem_append.mpr (Or.inl hc)))
      · exact List.mem_append.mpr (Or.inr (ih x h2 hc))

theorem mem_dropWhile_of_not (p : Char → Bool) :
    ∀ (l : List Char) (c : Char), c ∈ l → p c = false → c ∈ l.dropWhile p := by
  intro l
  induction l with
  | nil =>
    intro c hc _
    exact absurd hc (List.not_mem_nil c)
  | cons a t ih =>
    intro c hc hp
    by_cases hpa : p a = true
    · rw [List.dropWhile_cons_of_pos hpa]
      rcases List.mem_cons.mp hc with h1 | h2
      · subst h1
        rw [hpa] at hp
        exact absurd hp (by simp)
      · exact ih c h2 hp
    · rw [List.dropWhile_cons_of_neg hpa]
      exact hc

theorem pyStrip_ne_nil (l : List Char) (c : Char) (hc : c ∈ l) (hw : isPySpace c = false) :
    pyStrip l ≠ [] := by
  unfold pyStrip
  intro h
  have h1 : c ∈ l.dropWhile isPySpace := mem_dropWhile_of_not isPySpace l c hc hw
  have h2 : c ∈ (l.dropWhile isPySpace).reverse := List.mem_reverse.mpr h1
  have h3 : c ∈ (l.dropWhile isPySpace).reverse.dropWhile isPySpace :=
    mem_dropWhile_of_not isPySpace _ c h2 hw
  have h4 : c ∈ ((l.dropWhile isPySpace).reverse.dropWhile isPySpace).reverse :=
    List.mem_reverse.mpr h3
  rw [h] at h4
  exact absurd h4 (List.not_mem_nil c)

theorem mem_if_not_empty {α : Type} (b : Bool) (l : List α) (x : α) (hb : b = false)
    (hx : x ∈ l) : x ∈ (if b = true then ([] : List α) else l) := by
  rw [hb]
  simpa using hx

theorem extract_context_eq (code : List Char) :
    extract_context code = pyStrip (joinNL (
      (if ((findall reUsing code).map (fun m => m.1)).isEmpty then []
       else [joinNL ((findall reUsing code).map (fun m => m.1))]) ++
      (match research reNamespace code none with
       | some (_, g, _) => [nsLabelStr.toList ++ getCapture 1 g]
       | none => []) ++
      (if ((findall reClassDecl code).map
          (fun m => (getCapture 1 m.2, getCapture 2 m.2))).isEmpty then []
       else [classesLabelStr.toList ++ joinSep commaSpStr.toList
         (((findall reClassDecl code).map
           (fun m => (getCapture 1 m.2, getCapture 2 m.2))).map
             (fun p => p.1 ++ ' ' :: p.2))]) ++
      (if ((findall reMethodDecl code).map (fun m => getCapture 1 m.2)).isEmpty then []
       else [methodsLabelStr.toList ++ joinSep commaSpStr.toList
         ((findall reMethodDecl code).map (fun m => getCapture 1 m.2))]))) := rfl

theorem findall_reUsing_nonspace_of_mem (code : List Char) (x : List Char × Captures)
    (hx : x ∈ findall reUsing code) : ∃ c, c ∈ x.1 ∧ isPySpace c = false := by
  apply findallAux_reUsing_nonspace (code.length + 1) code none x.1 x.2
  have hx2 : (x.1, x.2) = x := rfl
  rw [hx2]
  exact hx

theorem isEmpty_map_false {A B : Type} (f : A → B) (l : List A) (h : l.isEmpty = false) :
    (l.map f).isEmpty = false := by
  cases l with
  | nil => simp at h
  | cons a t => rfl

theorem extract_context_ne_nil (code : List Char) (h : has_context_match code = true) :
    extract_context code ≠ [] := by
  rw [extract_context_eq]
  unfold has_context_match at h
  rw [Bool.or_eq_true, Bool.or_eq_true, Bool.or_eq_true] at h
  rcases h with ((hns | hus) | hcl) | hmd
  · -- a namespace declaration matched
    obtain ⟨trip, htrip⟩ := Option.isSome_iff_exists.mp hns
    obtain ⟨i0, g0, rest0⟩ := trip
    rw [htrip]
    apply pyStrip_ne_nil _ 'N'
    · apply mem_joinSep _ 'N' _ (nsLabelStr.toList ++ getCapture 1 g0)
      · apply List.mem_append.mpr
        left
        apply List.mem_append.mpr
        left
        apply List.mem_append.mpr
        right
        exact List.mem_cons_self _ _
      · apply List.mem_append.mpr
        left
        decide
    · decide
  · -- a using line matched
    rw [Bool.not_eq_true'] at hus
    have husm : ((findall reUsing code).map (fun m => m.1)).isEmpty = false :=
      isEmpty_map_false _ _ hus
    have hfne : findall reUsing code ≠ [] := by
      intro h0
      rw [h0] at hus
      simp at hus
    obtain ⟨x, hx⟩ := List.exists_mem_of_ne_nil _ hfne
    obtain ⟨c, hc, hcs⟩ := findall_reUsing_nonspace_of_mem code x hx
    apply pyStrip_ne_nil _ c
    · apply mem_joinSep _ c _ (joinNL ((findall reUsing code).map (fun m => m.1)))
      · apply List.mem_append.mpr
        left
        apply List.mem_append.mpr
        left
        apply List.mem_append.mpr
        left
        apply mem_if_not_empty _ _ _ husm
        exact List.mem_cons_self _ _
      · apply mem_joinSep _ c _ x.1
        · exact List.mem_map_of_mem (fun m => m.1) hx
        · exact hc
    · exact hcs
  · -- a class/struct/record declaration matched
    rw [Bool.not_eq_true'] at hcl
    have hclm : (((findall reClassDecl code).map
        (fun m => (getCapture 1 m.2, getCapture 2 m.2)))).isEmpty = false :=
      isEmpty_map_false _ _ hcl
    apply pyStrip_ne_nil _ 'C'
    · apply mem_joinSep _ 'C' _ (classesLabelStr.toList ++ joinSep commaSpStr.toList
        (((findall reClassDecl code).map
          (fun m => (getCapture 1 m.2, getCapture 2 m.2))).map
            (fun p => p.1 ++ ' ' :: p.2)))
      · apply List.mem_append.mpr
        left
        apply List.mem_append.mpr
        right
        apply mem_if_not_empty _ _ _ hclm
        exact List.mem_cons_self _ _
      · apply List.mem_append.mpr
        left
        decide
    · decide
  · -- a method signature matched
    rw [Bool.not_eq_true'] at hmd
    have hmdm : ((findall reMethodDecl code).map (fun m => getCapture 1 m.2)).isEmpty = false :=
      isEmpty_map_false _ _ hmd
    apply pyStrip_ne_nil _ 'M'
    · apply mem_joinSep _ 'M' _ (methodsLabelStr.toList ++ joinSep commaSpStr.toList
        ((findall reMethodDecl code).map (fun m => getCapture 1 m.2)))
      · apply List.mem_append.mpr
        right
        apply mem_if_not_empty _ _ _ hmdm
        exact List.mem_cons_self _ _
      · apply List.mem_append.mpr
        left
        decide
    · decide

/-- Claim C6: the context string passed to the per-chunk upgrade calls is
empty whenever the file splits into exactly one chunk; and when it splits
into more than one chunk, the context is non-empty provided the file text
contains at least one matching import/namespace/type/method pattern. -/
theorem file_context_spec (original_code : List Char) :
    ((chunk_text original_code CHUNK_SIZE).length = 1 → file_context original_code = []) ∧
    (1 < (chunk_text original_code CHUNK_SIZE).length →
      has_context_match original_code = true → file_context original_code ≠ []) := by
  constructor
  · intro h1
    unfold file_context
    rw [h1]
    simp
  · intro h1 h2
    unfold file_context
    rw [if_pos h1]
    exact extract_context_ne_nil original_code h2

theorem file_context_spec_witness :
    file_context [ 'x' ] = [] ∧
    file_context (sampleNsHeader.toList ++ List.replicate 200000 ' ') ≠ [] := by
  constructor
  · exact (file_context_spec [ 'x' ]).1 (by decide)
  · have hlen : (sampleNsHeader.toList ++ List.replicate 200000 ' ').length = 200012 := by
      rw [List.length_append, List.length_replicate]
      decide
    have h1 : 1 < (chunk_text (sampleNsHeader.toList
        ++ List.replicate 200000 ' ') CHUNK_SIZE).length := by
      rw [chunk_text_length CHUNK_SIZE (by norm_num [CHUNK_SIZE]) _ _ (Nat.le_refl _), hlen]
      norm_num [CHUNK_SIZE]
    have h2 : has_context_match (sampleNsHeader.toList ++ List.replicate 200000 ' ') = true := rfl
    exact (file_context_spec _).2 h1 h2
